import Mathlib

/-!
A shallow embedding of the tdesign-vue-next-mcp-server source
(`src/index.ts`): the markdown component-doc extraction pipeline
(`extractSection`, `extractFirstTable`, `splitRowPreservingEscapedPipes`,
`parseMarkdownTable`, the props/events/methods interpreters and the
single/multi document dispatcher), the index-persistence step of
`processComponent`, and the three MCP tool handlers, together with
theorems checking the specification's claims against the embedding.

Lines of text are embedded as `List Char`; JS string methods (`trim`,
`toLowerCase`, `startsWith`, `includes`, `split`, regex replaces) are
embedded as executable functions over character lists.
-/

namespace TDesign

/-- A line of text, as a list of characters. -/
abbrev Line := List Char

/-- View of a Lean string literal as a character list. -/
def str (s : String) : Line := s.data

/-- Whitespace model used for JS `trim`, `trimEnd` and the regex class
`\s` throughout the embedding. -/
def isWs (c : Char) : Bool := c = ' ' || c = '\t' || c = '\n' || c = '\r'

/-- The ASCII upper/lower case pairs, the alphabet on which the
embeddings of JS `toLowerCase` and `toUpperCase` act. -/
def asciiCaseTable : List (Char × Char) :=
  [('A', 'a'), ('B', 'b'), ('C', 'c'), ('D', 'd'), ('E', 'e'), ('F', 'f'),
   ('G', 'g'), ('H', 'h'), ('I', 'i'), ('J', 'j'), ('K', 'k'), ('L', 'l'),
   ('M', 'm'), ('N', 'n'), ('O', 'o'), ('P', 'p'), ('Q', 'q'), ('R', 'r'),
   ('S', 's'), ('T', 't'), ('U', 'u'), ('V', 'v'), ('W', 'w'), ('X', 'x'),
   ('Y', 'y'), ('Z', 'z')]

/-- Embedding of JS `String.prototype.toLowerCase` on one character
(ASCII letters; all other characters are unchanged). -/
def lowerC (c : Char) : Char :=
  match asciiCaseTable.find? (fun pr => pr.1 == c) with
  | some pr => pr.2
  | none => c

/-- Embedding of JS `String.prototype.toUpperCase` on one character
(ASCII letters; all other characters are unchanged). -/
def upperC (c : Char) : Char :=
  match asciiCaseTable.find? (fun pr => pr.2 == c) with
  | some pr => pr.1
  | none => c

/-- JS `toLowerCase` on a whole line. -/
def toLowerL (s : Line) : Line := s.map lowerC

/-- JS `toUpperCase` on a whole line. -/
def toUpperL (s : Line) : Line := s.map upperC

/-- JS `String.prototype.trim`: strip whitespace from both ends. -/
def trimL (s : Line) : Line := List.dropWhile isWs (List.rdropWhile isWs s)

/-- JS `String.prototype.trimEnd` (the source's `normalizeLine`). -/
def trimRightL (s : Line) : Line := List.rdropWhile isWs s

/-- JS `String.prototype.includes`: substring containment test. -/
def hasSub (p : Line) : Line → Bool
  | [] => p.isEmpty
  | c :: rest => p.isPrefixOf (c :: rest) || hasSub p rest

/-- The private placeholder token of `splitRowPreservingEscapedPipes`. -/
def PLACEHOLDER : Line := str "__ESCAPED_PIPE__"

/-- First phase of the row tokenizer: `row.replace(/\\\|/g, PLACEHOLDER)` —
replace every backslash-escaped pipe with the placeholder token. -/
def subEscapedPipes : Line → Line
  | [] => []
  | [c] => [c]
  | c1 :: c2 :: rest =>
    if c1 = '\\' ∧ c2 = '|' then PLACEHOLDER ++ subEscapedPipes rest
    else c1 :: subEscapedPipes (c2 :: rest)

/-- Fuel-driven worker for `restorePlaceholder`; the fuel is an upper bound
on the number of characters still to be scanned. -/
def restoreAux : Nat → Line → Line
  | 0, s => s
  | _ + 1, [] => []
  | n + 1, c :: rest =>
    if PLACEHOLDER.isPrefixOf (c :: rest) then
      '|' :: restoreAux n (List.drop (PLACEHOLDER.length - 1) rest)
    else c :: restoreAux n rest

/-- Last phase of the row tokenizer: `p.replace(new RegExp(PLACEHOLDER, "g"), "|")`
— rewrite every occurrence of the placeholder token back to a pipe. -/
def restorePlaceholder (s : Line) : Line := restoreAux s.length s

/-- JS `String.prototype.split` on the pipe character. -/
def splitOnPipe : Line → List Line
  | [] => [[]]
  | c :: rest =>
    if c = '|' then [] :: splitOnPipe rest
    else
      match splitOnPipe rest with
      | part :: parts => (c :: part) :: parts
      | [] => [[c]]

/-- JS `row.replace(/^\|/, "")`: strip one optional leading pipe. -/
def dropLeadingPipe : Line → Line
  | '|' :: rest => rest
  | s => s

/-- JS `row.replace(/\|$/, "")`: strip one optional trailing pipe. -/
def dropTrailingPipe (s : Line) : Line :=
  if s.getLast? = some '|' then s.dropLast else s

/-- Embedding of `splitRowPreservingEscapedPipes` (src/index.ts:280-290):
substitute escaped pipes with a placeholder, strip the optional outer
pipes, split on the remaining pipes, trim each cell and restore the
placeholder to a literal pipe. -/
def splitRowPreservingEscapedPipes (row : Line) : List Line :=
  let replaced := subEscapedPipes row
  let parts := splitOnPipe (dropTrailingPipe (dropLeadingPipe replaced))
  parts.map (fun p => restorePlaceholder (trimL p))

example : splitRowPreservingEscapedPipes (str "| a | b\\|c |") =
    [str "a", str "b|c"] := by decide

example : splitRowPreservingEscapedPipes (str "| 名称 | 类型 |") =
    [str "名称", str "类型"] := by decide

/-- Embedding of `extractSection` (src/index.ts:242-252): find the first
line whose trimmed, lowercased text starts with `### ` followed by the
lowercased heading label, and return the following lines up to (not
including) the next line whose trimmed text starts with `### `. -/
def extractSection : List Line → Line → List Line
  | [], _ => []
  | l :: rest, heading =>
    if (str "### " ++ toLowerL heading).isPrefixOf (toLowerL (trimL l)) then
      rest.takeWhile (fun x => !((str "### ").isPrefixOf (trimL x)))
    else extractSection rest heading

/-- The separator-row test of `extractFirstTable`: JS
`/\|\s*-{2,}/.test(line)` — somewhere in the line, a pipe followed by
optional whitespace and at least two dashes. -/
def sepTest : Line → Bool
  | [] => false
  | c :: rest =>
    (c = '|' && wsDashes rest) || sepTest rest
where
  /-- After the pipe: skip whitespace, then require two dashes. -/
  wsDashes : Line → Bool
    | [] => false
    | c :: rest =>
      if isWs c then wsDashes rest
      else c = '-' && rest.head? = some '-'

/-- The candidate-header test of `extractFirstTable`, applied to the
trimmed line: `t.startsWith("|") || (t.includes("|") && !t.startsWith("###"))`. -/
def isCandidateHeader (t : Line) : Bool :=
  (str "|").isPrefixOf t ||
    (hasSub (str "|") t && !((str "###").isPrefixOf t))

/-- The scanning loop of `extractFirstTable`: return the suffix of the
section starting at the first confirmed header line (a candidate header
immediately followed by a separator line), or `[]` if none exists. -/
def tableStart : List Line → List Line
  | l :: next :: rest =>
    if isCandidateHeader (trimL l) && sepTest next then l :: next :: rest
    else tableStart (next :: rest)
  | _ => []

/-- The collection loop of `extractFirstTable`: take lines while they
contain a pipe and are not blank, additionally stopping after the
current line when the next line is blank. -/
def collectTable : List Line → List Line
  | [] => []
  | t :: rest =>
    if !(t.contains '|') then []
    else if trimL t = [] then []
    else
      t :: (match rest with
        | next :: _ => if trimL next = [] then [] else collectTable rest
        | [] => [])

/-- Embedding of `extractFirstTable` (src/index.ts:254-278): normalize
(trim right) every line, locate the first header/separator pair, and
collect the contiguous table lines from there. -/
def extractFirstTable (sectionLines : List Line) : List Line :=
  collectTable (tableStart (sectionLines.map trimRightL))

/-- A parsed markdown table: header cells and data-row cells. -/
structure TableData where
  headers : List Line
  rows : List (List Line)
deriving DecidableEq

/-- Embedding of `parseMarkdownTable` (src/index.ts:292-300): fewer than
two lines yields the empty table; otherwise the first line is the header
(lowercased cells), the second line (the separator) is skipped, and the
remaining non-blank pipe-containing lines are the data rows. -/
def parseMarkdownTable : List Line → TableData
  | h :: _ :: rest =>
    { headers := (splitRowPreservingEscapedPipes h).map toLowerL
      rows := (rest.filter
          (fun l => decide (0 < (trimL l).length) && l.contains '|')).map
        splitRowPreservingEscapedPipes }
  | _ => { headers := [], rows := [] }

/-- JS `cols[idx] || ""` where `idx` is the (possibly absent) result of
`headers.indexOf(...)`: an absent index or an out-of-range access gives
the empty string. -/
def cellAt (cols : List Line) (idx : Option Nat) : Line :=
  match idx with
  | some i => cols.getD i []
  | none => []

/-- A parsed props-table row (the source's `ParsedPropRow`). -/
structure ParsedPropRow where
  name : Line
  type : Line
  defaultValue : Option Line
  description : Line
  required : Bool
deriving DecidableEq

/-- A parsed events-table row (the source's `ParsedEventRow`). -/
structure ParsedEventRow where
  name : Line
  params : Line
  description : Line
deriving DecidableEq

/-- A parsed methods-table row (the source's `ParsedMethodRow`). -/
structure ParsedMethodRow where
  name : Line
  params : Line
  returnType : Line
  description : Line
deriving DecidableEq

/-- The row-processing body of `parsePropsTable`'s `rows.forEach`
(src/index.ts:311-319), for one data row. -/
def parsePropRow (nameIdx typeIdx defaultIdx descIdx requiredIdx : Option Nat)
    (cols : List Line) : ParsedPropRow :=
  let defaultValueRaw := trimL (cellAt cols defaultIdx)
  let requiredRaw := toUpperL (trimL (cellAt cols requiredIdx))
  { name := trimL (cellAt cols nameIdx)
    type := trimL (cellAt cols typeIdx)
    defaultValue :=
      if defaultValueRaw = str "-" ∨ defaultValueRaw = [] then none
      else some defaultValueRaw
    description := trimL (cellAt cols descIdx)
    required := requiredRaw = str "Y" ∨ requiredRaw = str "YES" }

/-- Embedding of `parsePropsTable` (src/index.ts:302-322). -/
def parsePropsTable (tableLines : List Line) : List ParsedPropRow :=
  let t := parseMarkdownTable tableLines
  if t.headers.length = 0 then []
  else
    t.rows.map (parsePropRow
      (t.headers.findIdx? (· = str "名称"))
      (t.headers.findIdx? (· = str "类型"))
      (t.headers.findIdx? (· = str "默认值"))
      (t.headers.findIdx? (· = str "说明"))
      (t.headers.findIdx? (· = str "必传")))

/-- The row-processing body of `parseEventsTable`'s `rows.forEach`. -/
def parseEventRow (nameIdx paramsIdx descIdx : Option Nat)
    (cols : List Line) : ParsedEventRow :=
  { name := trimL (cellAt cols nameIdx)
    params := trimL (cellAt cols paramsIdx)
    description := trimL (cellAt cols descIdx) }

/-- Embedding of `parseEventsTable` (src/index.ts:324-338). -/
def parseEventsTable (tableLines : List Line) : List ParsedEventRow :=
  let t := parseMarkdownTable tableLines
  if t.headers.length = 0 then []
  else
    t.rows.map (parseEventRow
      (t.headers.findIdx? (· = str "名称"))
      (t.headers.findIdx? (· = str "参数"))
      (t.headers.findIdx? (· = str "描述")))

/-- The row-processing body of `parseMethodsTable`'s `rows.forEach`. -/
def parseMethodRow (nameIdx paramsIdx returnIdx descIdx : Option Nat)
    (cols : List Line) : ParsedMethodRow :=
  { name := trimL (cellAt cols nameIdx)
    params := trimL (cellAt cols paramsIdx)
    returnType := trimL (cellAt cols returnIdx)
    description := trimL (cellAt cols descIdx) }

/-- Embedding of `parseMethodsTable` (src/index.ts:340-356). -/
def parseMethodsTable (tableLines : List Line) : List ParsedMethodRow :=
  let t := parseMarkdownTable tableLines
  if t.headers.length = 0 then []
  else
    t.rows.map (parseMethodRow
      (t.headers.findIdx? (· = str "名称"))
      (t.headers.findIdx? (· = str "参数"))
      (t.headers.findIdx? (· = str "返回值"))
      (t.headers.findIdx? (· = str "描述")))

/-- The extracted document of one component (the source's
`ComponentDocJson`); `methods` is present only when a methods table was
found. -/
structure ComponentDocJson where
  component : Line
  props : List ParsedPropRow
  events : List ParsedEventRow
  methods : Option (List ParsedMethodRow)
deriving DecidableEq

/-- JS `line.replace(/^\s*###\s*/i, "")`: strip leading whitespace, a
literal `###` and the following whitespace; if the line does not start
(after whitespace) with `###`, it is returned unchanged. -/
def stripHashMarker (l : Line) : Line :=
  let t := List.dropWhile isWs l
  if (str "###").isPrefixOf t then List.dropWhile isWs (t.drop 3) else l

/-- The test for `\s+` followed by a case-insensitive `props` at the head
of the line, used to locate the match of JS `/\s+Props.*/i`. -/
def wsPropsAt : Line → Bool
  | [] => false
  | c :: rest =>
    isWs c && ((str "props").isPrefixOf (toLowerL rest) || wsPropsAt rest)

/-- JS `line.replace(/\s+Props.*/i, "")`: delete everything from the
first occurrence of whitespace followed by a case-insensitive `props`. -/
def stripPropsSuffix : Line → Line
  | [] => []
  | c :: rest =>
    if wsPropsAt (c :: rest) then [] else c :: stripPropsSuffix rest

/-- The component-name derivation applied to a props heading line:
`line.replace(/^\s*###\s*/i, "").replace(/\s+Props.*/i, "").trim()`. -/
def stripHeadingName (l : Line) : Line :=
  trimL (stripPropsSuffix (stripHashMarker l))

example : stripHeadingName (str "### Button Props") = str "Button" := by decide

/-- The props-heading predicate used by `processMarkdownFile` to count
component headings: the trimmed, lowercased line starts with `### ` and
contains `props`. -/
def isPropsHeading (l : Line) : Bool :=
  (str "### ").isPrefixOf (toLowerL (trimL l)) &&
    hasSub (str "props") (toLowerL (trimL l))

/-- The props-heading predicate used by the single-component branch's
`lines.find`: the `includes("props")` test is applied to the untrimmed
lowercased line. -/
def isPropsHeadingFind (l : Line) : Bool :=
  (str "### ").isPrefixOf (toLowerL (trimL l)) &&
    hasSub (str "props") (toLowerL l)

/-- The section extraction and table interpretation shared verbatim by
the single-component branch of `processMarkdownFile` and by each
component of `parseMultiComponentDoc`. -/
def buildComponentDoc (lines : List Line) (component : Line) : ComponentDocJson :=
  let propsTable := extractFirstTable (extractSection lines (component ++ str " Props"))
  let eventsTable := extractFirstTable (extractSection lines (component ++ str " Events"))
  let methodsTable := extractFirstTable
    (extractSection lines (component ++ str "InstanceFunctions 组件实例方法"))
  { component := component
    props := parsePropsTable propsTable
    events := parseEventsTable eventsTable
    methods := if 0 < methodsTable.length then some (parseMethodsTable methodsTable)
      else none }

/-- Embedding of `parseMultiComponentDoc` (src/index.ts:358-389): one
`ComponentDocJson` per trimmed line that satisfies the props-heading
predicate, in document order. -/
def parseMultiComponentDoc (lines : List Line) : List ComponentDocJson :=
  ((lines.map trimL).filter
      (fun line => (str "### ").isPrefixOf (toLowerL line) &&
        hasSub (str "props") (toLowerL line))).map
    (fun line => buildComponentDoc lines (stripHeadingName line))

/-- The pure extraction part of `processMarkdownFile`
(src/index.ts:407-447): dispatch on the number of props headings; more
than one heading takes the multi-component path, otherwise the
single-component path derives one name (or `Unknown`). -/
def processMarkdownFile (lines : List Line) : List ComponentDocJson :=
  let componentHeadings := lines.filter isPropsHeading
  if 1 < componentHeadings.length then parseMultiComponentDoc lines
  else
    let component :=
      match lines.find? isPropsHeadingFind with
      | some l => stripHeadingName l
      | none => str "Unknown"
    [buildComponentDoc lines component]

/-- Worker for the slug step `replace(/\s+/g, "-")`: every maximal
whitespace run becomes one dash.  The fuel bounds the characters left. -/
def squashWsAux : Nat → Line → Line
  | 0, s => s
  | _ + 1, [] => []
  | n + 1, c :: rest =>
    if isWs c then '-' :: squashWsAux n (List.dropWhile isWs rest)
    else c :: squashWsAux n rest

/-- JS `replace(/\s+/g, "-")` on the component name. -/
def squashWsDash (s : Line) : Line := squashWsAux s.length s

/-- The slug character filter `replace(/[^a-zA-Z0-9\-_.]/g, "-")`,
applied to one character. -/
def sanitizeC (c : Char) : Char :=
  if ('a' ≤ c ∧ c ≤ 'z') ∨ ('A' ≤ c ∧ c ≤ 'Z') ∨ ('0' ≤ c ∧ c ≤ '9') ∨
      c = '-' ∨ c = '_' ∨ c = '.' then c
  else '-'

/-- Worker for the slug step `dash-run replace (regex dash-plus to "-")`: every maximal dash
run becomes one dash. -/
def squashDashAux : Nat → Line → Line
  | 0, s => s
  | _ + 1, [] => []
  | n + 1, c :: rest =>
    if c = '-' then '-' :: squashDashAux n (List.dropWhile (· = '-') rest)
    else c :: squashDashAux n rest

/-- JS `dash-run replace (regex dash-plus to "-")` on the component name. -/
def squashDash (s : Line) : Line := squashDashAux s.length s

/-- JS `replace(/^-|-$/g, "")`: drop one leading and one trailing dash. -/
def stripEdgeDashes (s : Line) : Line :=
  let s1 := match s with
    | '-' :: rest => rest
    | t => t
  if s1.getLast? = some '-' then s1.dropLast else s1

/-- The filesystem-safe slug of a component name computed by
`processComponent` (src/index.ts:525-531), with the `|| "unknown"`
fallback for an empty slug. -/
def safeName (component : Line) : Line :=
  let n := stripEdgeDashes (squashDash
    ((squashWsDash (trimL component)).map sanitizeC))
  if n = [] then str "unknown" else n

/-- The per-component data file path computed by `processComponent`:
`path.join("src", "data", "components", safeName + ".json")`. -/
def componentFileRel (component : Line) : Line :=
  str "src/data/components/" ++ safeName component ++ str ".json"

/-- One entry of the persisted component index (`{name, file}`). -/
structure IndexEntry where
  name : Line
  file : Line
deriving DecidableEq

/-- The index-maintenance step of `processComponent`
(src/index.ts:554-558): append `{name, file}` unless an entry with the
same case-insensitive name already exists. -/
def processComponentIndex (components : List IndexEntry) (component : Line) :
    List IndexEntry :=
  if components.any (fun e => decide (toLowerL e.name = toLowerL component)) then
    components
  else components ++ [{ name := component, file := componentFileRel component }]

/-- C1: the single-component document of the spec's concrete scenario
(`### Button Props` with one props data row) extracts to exactly one
`ComponentDoc` with component `Button`, the single expected prop record,
no events and an absent methods field. -/
theorem extraction_button_scenario :
    processMarkdownFile
      [str "### Button Props",
       str "| 名称 | 类型 | 默认值 | 说明 | 必传 |",
       str "| -- | -- | -- | -- | -- |",
       str "| theme | string | default | 按钮风格 | N |"] =
    [{ component := str "Button"
       props := [{ name := str "theme", type := str "string",
                   defaultValue := some (str "default"),
                   description := str "按钮风格", required := false }]
       events := []
       methods := none }] := by decide

/-- C6: for every props data row, the produced record's `defaultValue`
is `none` exactly when the trimmed default-value cell is empty or the
literal `-` placeholder, and otherwise equals the trimmed cell text. -/
theorem propRow_defaultValue_rule
    (nameIdx typeIdx defaultIdx descIdx requiredIdx : Option Nat)
    (cols : List Line) :
    ((parsePropRow nameIdx typeIdx defaultIdx descIdx requiredIdx cols).defaultValue
        = none ↔
      (trimL (cellAt cols defaultIdx) = [] ∨
        trimL (cellAt cols defaultIdx) = str "-")) ∧
    ∀ v, (parsePropRow nameIdx typeIdx defaultIdx descIdx requiredIdx cols).defaultValue
        = some v → v = trimL (cellAt cols defaultIdx) := by
  have hd : (parsePropRow nameIdx typeIdx defaultIdx descIdx requiredIdx
        cols).defaultValue =
      if trimL (cellAt cols defaultIdx) = str "-" ∨
          trimL (cellAt cols defaultIdx) = [] then none
      else some (trimL (cellAt cols defaultIdx)) := rfl
  constructor
  · rw [hd]
    split_ifs with h
    · exact iff_of_true rfl (Or.symm h)
    · apply iff_of_false
      · simp
      · intro hc
        exact h (Or.symm hc)
  · intro v hv
    rw [hd] at hv
    split_ifs at hv with h
    · cases hv
      rfl

/-- Witness for C6 at a concrete row whose default cell is `-`. -/
theorem propRow_defaultValue_rule_witness :
    (parsePropRow (some 0) none (some 1) none none
      [str "theme", str "-"]).defaultValue = none :=
  (propRow_defaultValue_rule (some 0) none (some 1) none none
    [str "theme", str "-"]).1.mpr (Or.inr (by decide))

/-- C7: a located table with fewer than two lines (in particular the
empty table the locator returns when no table exists) makes each of the
three schema interpreters return the empty record list. -/
theorem interpreters_empty_on_short_table (tableLines : List Line)
    (h : tableLines.length < 2) :
    parsePropsTable tableLines = [] ∧ parseEventsTable tableLines = [] ∧
      parseMethodsTable tableLines = [] := by
  match tableLines with
  | [] => exact ⟨rfl, rfl, rfl⟩
  | [a] => exact ⟨rfl, rfl, rfl⟩
  | a :: b :: rest => exact absurd h (by simp)

/-- Witness for C7 at the empty table. -/
theorem interpreters_empty_on_short_table_witness :
    parsePropsTable [] = [] ∧ parseEventsTable [] = [] ∧
      parseMethodsTable [] = [] :=
  interpreters_empty_on_short_table [] (by decide)

/-- C8: persisting a component whose name already occurs
case-insensitively in the index leaves the index entries unchanged; in
particular the existing entry keeps its old `file` path. -/
theorem index_append_idempotent (components : List IndexEntry) (component : Line)
    (h : components.any
      (fun e => decide (toLowerL e.name = toLowerL component)) = true) :
    processComponentIndex components component = components := by
  unfold processComponentIndex
  rw [if_pos h]

/-- Witness for C8: re-persisting `button` over an index whose `Button`
entry records a different file path leaves that old path in place. -/
theorem index_append_idempotent_witness :
    processComponentIndex
        [{ name := str "Button", file := str "src/data/components/OLD.json" }]
        (str "button") =
      [{ name := str "Button", file := str "src/data/components/OLD.json" }] ∧
    componentFileRel (str "button") ≠ str "src/data/components/OLD.json" :=
  ⟨index_append_idempotent
      [{ name := str "Button", file := str "src/data/components/OLD.json" }]
      (str "button") (by decide),
    by decide⟩

/-! Supporting lemmas about the phases of the row tokenizer. -/

theorem subEscapedPipes_cons (c : Char) (s : Line) (h : c ≠ '\\') :
    subEscapedPipes (c :: s) = c :: subEscapedPipes s := by
  match s with
  | [] => rfl
  | c2 :: r =>
    simp only [subEscapedPipes]
    rw [if_neg (fun hif => h hif.1)]

theorem subEscapedPipes_clean (s : Line) (h : ∀ c ∈ s, c ≠ '\\') :
    subEscapedPipes s = s := by
  induction s using subEscapedPipes.induct with
  | case1 => rfl
  | case2 c => rfl
  | case3 c1 c2 rest hif ih =>
    exact absurd hif.1 (h c1 (by simp))
  | case4 c1 c2 rest hif ih =>
    simp only [subEscapedPipes, if_neg hif]
    rw [ih (fun c hc => h c (List.mem_cons_of_mem c1 hc))]

theorem subEscapedPipes_append (a s : Line) (h : ∀ c ∈ a, c ≠ '\\') :
    subEscapedPipes (a ++ s) = a ++ subEscapedPipes s := by
  induction a with
  | nil => rfl
  | cons c a' ih =>
    rw [List.cons_append, subEscapedPipes_cons c _ (h c (by simp)),
      ih (fun c hc => h c (List.mem_cons_of_mem _ hc)), List.cons_append]

theorem subEscapedPipes_escape (s : Line) :
    subEscapedPipes ('\\' :: '|' :: s) = PLACEHOLDER ++ subEscapedPipes s := by
  simp [subEscapedPipes]

theorem splitOnPipe_no_pipe (s : Line) (h : ∀ c ∈ s, c ≠ '|') :
    splitOnPipe s = [s] := by
  induction s with
  | nil => rfl
  | cons c r ih =>
    simp only [splitOnPipe]
    rw [if_neg (h c (by simp)), ih (fun c hc => h c (List.mem_cons_of_mem _ hc))]

theorem PLACEHOLDER_head : PLACEHOLDER = '_' :: str "_ESCAPED_PIPE__" := rfl

theorem PLACEHOLDER_last : PLACEHOLDER = str "__ESCAPED_PIPE_" ++ ['_'] := rfl

theorem restoreAux_clean (n : Nat) (s : Line) (h : ∀ c ∈ s, c ≠ '_') :
    restoreAux n s = s := by
  induction n generalizing s with
  | zero => rfl
  | succ n ih =>
    match s with
    | [] => rfl
    | c :: rest =>
      have hpre : ¬ (PLACEHOLDER.isPrefixOf (c :: rest) = true) := by
        intro hp
        rw [PLACEHOLDER_head] at hp
        simp only [List.isPrefixOf, Bool.and_eq_true, beq_iff_eq] at hp
        exact h c (by simp) hp.1.symm
      simp only [restoreAux, if_neg hpre]
      rw [ih rest (fun c' hc => h c' (List.mem_cons_of_mem _ hc))]

theorem restoreAux_sandwich (a b : Line) (n : Nat)
    (ha : ∀ c ∈ a, c ≠ '_') (hb : ∀ c ∈ b, c ≠ '_')
    (hn : a.length + PLACEHOLDER.length + b.length ≤ n) :
    restoreAux n (a ++ PLACEHOLDER ++ b) = a ++ '|' :: b := by
  induction a generalizing n with
  | nil =>
    match n with
    | 0 =>
      exfalso
      have h16 : PLACEHOLDER.length = 16 := rfl
      rw [h16] at hn
      omega
    | m + 1 =>
      rw [List.nil_append, PLACEHOLDER_head, List.cons_append, List.nil_append]
      simp only [restoreAux]
      rw [if_pos]
      · rw [show PLACEHOLDER.length - 1 = (str "_ESCAPED_PIPE__").length from rfl,
          List.drop_left,
          restoreAux_clean m b hb]
      · have : '_' :: (str "_ESCAPED_PIPE__" ++ b) = PLACEHOLDER ++ b := by
          rw [PLACEHOLDER_head, List.cons_append]
        rw [this]
        exact List.isPrefixOf_iff_prefix.mpr (List.prefix_append _ b)
  | cons c a' ih =>
    match n with
    | 0 =>
      exfalso
      have h16 : PLACEHOLDER.length = 16 := rfl
      rw [h16] at hn
      omega
    | m + 1 =>
      have hrow : c :: a' ++ PLACEHOLDER ++ b = c :: (a' ++ PLACEHOLDER ++ b) := by
        simp [List.cons_append]
      rw [hrow]
      have hpre : ¬ (PLACEHOLDER.isPrefixOf (c :: (a' ++ PLACEHOLDER ++ b)) = true) := by
        intro hp
        rw [PLACEHOLDER_head] at hp
        simp only [List.isPrefixOf, Bool.and_eq_true, beq_iff_eq] at hp
        exact ha c (by simp) hp.1.symm
      simp only [restoreAux, if_neg hpre]
      rw [ih m (fun x hx => ha x (List.mem_cons_of_mem _ hx))
        (by simp only [List.length_cons] at hn; omega)]
      rw [List.cons_append]

theorem restorePlaceholder_sandwich (a b : Line)
    (ha : ∀ c ∈ a, c ≠ '_') (hb : ∀ c ∈ b, c ≠ '_') :
    restorePlaceholder (a ++ PLACEHOLDER ++ b) = a ++ '|' :: b :=
  restoreAux_sandwich a b _ ha hb (by simp only [List.length_append]; omega)

theorem dropWhile_ws_append_nonws (a : Line) (c : Char) (hc : isWs c = false)
    (X : Line) :
    List.dropWhile isWs (a ++ c :: X) = List.dropWhile isWs a ++ c :: X := by
  induction a with
  | nil => simp [List.dropWhile_cons, hc]
  | cons d a' ih =>
    simp only [List.cons_append, List.dropWhile_cons]
    split_ifs with h
    · exact ih
    · simp [List.cons_append]

theorem rdropWhile_ws_append_nonws (Y b : Line) (c : Char) (hc : isWs c = false) :
    List.rdropWhile isWs ((Y ++ [c]) ++ b) = (Y ++ [c]) ++ List.rdropWhile isWs b := by
  show (List.dropWhile isWs ((Y ++ [c]) ++ b).reverse).reverse = _
  rw [List.reverse_append, List.reverse_append, List.reverse_singleton,
    List.singleton_append, dropWhile_ws_append_nonws b.reverse c hc Y.reverse]
  rw [List.reverse_append, List.reverse_cons, List.reverse_reverse]
  show (Y ++ [c]) ++ (List.dropWhile isWs b.reverse).reverse = _
  rfl

theorem trimL_sandwich (a b : Line) :
    trimL (a ++ PLACEHOLDER ++ b) =
      List.dropWhile isWs a ++ PLACEHOLDER ++ List.rdropWhile isWs b := by
  have hshift : ∀ X : Line, str "__ESCAPED_PIPE_" ++ '_' :: X =
      '_' :: (str "_ESCAPED_PIPE__" ++ X) := fun X => rfl
  unfold trimL
  have h1 : a ++ PLACEHOLDER ++ b = ((a ++ str "__ESCAPED_PIPE_") ++ ['_']) ++ b := by
    rw [PLACEHOLDER_last]
    simp [List.append_assoc]
  rw [h1, rdropWhile_ws_append_nonws _ b '_' rfl]
  rw [List.append_assoc (a ++ str "__ESCAPED_PIPE_") ['_'] (List.rdropWhile isWs b)]
  rw [List.singleton_append]
  rw [List.append_assoc a (str "__ESCAPED_PIPE_") ('_' :: List.rdropWhile isWs b)]
  rw [hshift]
  rw [dropWhile_ws_append_nonws a '_' rfl]
  rw [List.append_assoc, PLACEHOLDER_head, List.cons_append]

theorem dropLeadingPipe_cons (s : Line) : dropLeadingPipe ('|' :: s) = s := rfl

theorem dropTrailingPipe_concat (s : Line) :
    dropTrailingPipe (s ++ ['|']) = s := by
  unfold dropTrailingPipe
  rw [if_pos (List.getLast?_concat s), List.dropLast_concat]

theorem placeholder_no_pipe : ∀ c ∈ PLACEHOLDER, c ≠ '|' := by decide

theorem placeholder_no_backslash : ∀ c ∈ PLACEHOLDER, c ≠ '\\' := by decide

/-- C5: a cell whose source text contains a backslash-escaped pipe is
tokenized as a single logical cell whose value contains the literal pipe
character; the escaped pipe is never treated as a column boundary.  The
cell text around the escape may be anything free of pipes, backslashes
and the placeholder's underscore character. -/
theorem escaped_pipe_single_cell (a b : Line)
    (ha : ∀ c ∈ a, c ≠ '|' ∧ c ≠ '\\' ∧ c ≠ '_')
    (hb : ∀ c ∈ b, c ≠ '|' ∧ c ≠ '\\' ∧ c ≠ '_') :
    splitRowPreservingEscapedPipes ('|' :: (a ++ '\\' :: '|' :: (b ++ ['|']))) =
      [List.dropWhile isWs a ++ '|' :: List.rdropWhile isWs b] := by
  simp only [splitRowPreservingEscapedPipes]
  rw [subEscapedPipes_cons '|' _ (by decide)]
  rw [subEscapedPipes_append a _ (fun c hc => (ha c hc).2.1)]
  rw [subEscapedPipes_escape]
  rw [subEscapedPipes_clean (b ++ ['|'])
    (fun c hc => by
      rcases List.mem_append.mp hc with h | h
      · exact (hb c h).2.1
      · simp only [List.mem_singleton] at h
        subst h
        decide)]
  rw [dropLeadingPipe_cons]
  rw [show a ++ (PLACEHOLDER ++ (b ++ ['|'])) = (a ++ PLACEHOLDER ++ b) ++ ['|'] from by
    simp [List.append_assoc]]
  rw [dropTrailingPipe_concat]
  rw [splitOnPipe_no_pipe (a ++ PLACEHOLDER ++ b)
    (fun c hc => by
      rcases List.mem_append.mp hc with h | h
      · rcases List.mem_append.mp h with h' | h'
        · exact (ha c h').1
        · exact placeholder_no_pipe c h'
      · exact (hb c h).1)]
  simp only [List.map_cons, List.map_nil]
  rw [trimL_sandwich]
  rw [restorePlaceholder_sandwich _ _
    (fun c hc => (ha c ((List.dropWhile_sublist isWs).subset hc)).2.2)
    (fun c hc => (hb c ((List.rdropWhile_prefix isWs b).subset hc)).2.2)]

/-- Witness for C5: the row `|ab\|cd|` tokenizes to the single cell
`ab|cd`. -/
theorem escaped_pipe_single_cell_witness :
    splitRowPreservingEscapedPipes (str "|ab\\|cd|") = [str "ab|cd"] := by
  have h := escaped_pipe_single_cell (str "ab") (str "cd") (by decide) (by decide)
  rw [show str "|ab\\|cd|" = '|' :: (str "ab" ++ '\\' :: '|' :: (str "cd" ++ ['|']))
    from by decide]
  rw [h]
  decide

/-- C9: a literal occurrence of the placeholder string
`__ESCAPED_PIPE__` in a cell's source text is rewritten to a pipe
character in the returned cell value, so the tokenizer conflates such
text with an escaped pipe and is not injective on cell contents. -/
theorem placeholder_conflation (a b : Line)
    (ha : ∀ c ∈ a, c ≠ '|' ∧ c ≠ '\\' ∧ c ≠ '_')
    (hb : ∀ c ∈ b, c ≠ '|' ∧ c ≠ '\\' ∧ c ≠ '_') :
    splitRowPreservingEscapedPipes ('|' :: (a ++ PLACEHOLDER ++ (b ++ ['|']))) =
      [List.dropWhile isWs a ++ '|' :: List.rdropWhile isWs b] := by
  simp only [splitRowPreservingEscapedPipes]
  rw [subEscapedPipes_clean _
    (fun c hc => by
      rcases List.mem_cons.mp hc with h | h
      · subst h
        decide
      · rcases List.mem_append.mp h with h' | h'
        · rcases List.mem_append.mp h' with h'' | h''
          · exact (ha c h'').2.1
          · exact placeholder_no_backslash c h''
        · rcases List.mem_append.mp h' with h'' | h''
          · exact (hb c h'').2.1
          · simp only [List.mem_singleton] at h''
            subst h''
            decide)]
  rw [dropLeadingPipe_cons]
  rw [show a ++ PLACEHOLDER ++ (b ++ ['|']) = (a ++ PLACEHOLDER ++ b) ++ ['|'] from by
    simp [List.append_assoc]]
  rw [dropTrailingPipe_concat]
  rw [splitOnPipe_no_pipe (a ++ PLACEHOLDER ++ b)
    (fun c hc => by
      rcases List.mem_append.mp hc with h | h
      · rcases List.mem_append.mp h with h' | h'
        · exact (ha c h').1
        · exact placeholder_no_pipe c h'
      · exact (hb c h).1)]
  simp only [List.map_cons, List.map_nil]
  rw [trimL_sandwich]
  rw [restorePlaceholder_sandwich _ _
    (fun c hc => (ha c ((List.dropWhile_sublist isWs).subset hc)).2.2)
    (fun c hc => (hb c ((List.rdropWhile_prefix isWs b).subset hc)).2.2)]

/-- Witness for C9: the row `|x__ESCAPED_PIPE__y|` tokenizes to the
single cell `x|y`, the same output an escaped pipe would produce. -/
theorem placeholder_conflation_witness :
    splitRowPreservingEscapedPipes (str "|x__ESCAPED_PIPE__y|") = [str "x|y"] := by
  have h := placeholder_conflation (str "x") (str "y") (by decide) (by decide)
  rw [show str "|x__ESCAPED_PIPE__y|" =
      '|' :: (str "x" ++ PLACEHOLDER ++ (str "y" ++ ['|'])) from by decide]
  rw [h]
  decide

/-! Claim C3: the section extractor's boundary rule. -/

/-- The heading-match test of `extractSection`, as a named predicate. -/
def matchesSectionHeading (heading l : Line) : Bool :=
  (str "### " ++ toLowerL heading).isPrefixOf (toLowerL (trimL l))

/-- A line whose trimmed text starts with the level-3 marker `### `. -/
def isLevel3Heading (l : Line) : Bool := (str "### ").isPrefixOf (trimL l)

/-- Index-based characterization of the section extractor: the lines
strictly between the first heading line matching the label and the next
line whose trimmed text starts with `### ` (or the end of the document),
and the empty sequence when no line matches. -/
def extractSectionSpec (lines : List Line) (heading : Line) : List Line :=
  match lines.findIdx? (matchesSectionHeading heading) with
  | none => []
  | some i =>
    (lines.drop (i + 1)).takeWhile (fun x => !((str "### ").isPrefixOf (trimL x)))

/-- C3, counterexample: a coarser-level heading (`## B`) does not
terminate the section — it is returned as part of the section body,
where the claim requires the section to stop before it. -/
theorem section_keeps_coarser_heading :
    extractSection [str "### A Props", str "x", str "## B"] (str "A Props") =
      [str "x", str "## B"] ∧
    extractSection [str "### A Props", str "x", str "## B"] (str "A Props") ≠
      [str "x"] := by
  constructor
  · decide
  · decide

/-- C3, amended: the section extractor returns the lines strictly
between the first line matching the label and the next line whose
trimmed text starts with the same-level marker `### ` (coarser or finer
headings do not terminate the section), or the end of the document, and
returns the empty sequence, not an error, when no line matches. -/
theorem extractSection_eq_spec (lines : List Line) (heading : Line) :
    extractSection lines heading = extractSectionSpec lines heading := by
  induction lines with
  | nil => rfl
  | cons l rest ih =>
    by_cases h : ((str "### " ++ toLowerL heading).isPrefixOf (toLowerL (trimL l)) = true)
    · simp only [extractSection, if_pos h]
      simp only [extractSectionSpec, matchesSectionHeading, List.findIdx?_cons,
        if_pos h]
      rfl
    · simp only [extractSection, if_neg h]
      rw [ih]
      simp only [extractSectionSpec, matchesSectionHeading, List.findIdx?_cons,
        if_neg h, List.findIdx?_succ]
      cases hr : List.findIdx? (matchesSectionHeading heading) rest with
      | none => rfl
      | some i => rfl

/-! Claim C4: the table locator's boundary rule. -/

/-- The header/separator pair test of `extractFirstTable`, on a pair of
adjacent lines. -/
def tablePairPred (pr : Line × Line) : Bool :=
  isCandidateHeader (trimL pr.1) && sepTest pr.2

/-- Index-based characterization of the table locator: after
normalization, the first table starts at the first adjacent pair whose
first line is a candidate header and whose second line passes the
separator test, and extends over the following pipe-containing non-blank
lines; no such pair means no table. -/
def extractFirstTableSpec (sectionLines : List Line) : List Line :=
  match ((sectionLines.map trimRightL).zip
      (sectionLines.map trimRightL).tail).findIdx? tablePairPred with
  | none => []
  | some i =>
    ((sectionLines.map trimRightL).drop i).takeWhile
      (fun l => l.contains '|' && !decide (trimL l = []))

/-- C4, counterexample: the line `| --` passes the code's separator test
although its dashes are not between two pipe delimiters, so a table is
located where the claim requires the empty sequence. -/
theorem table_separator_needs_no_closing_pipe :
    extractFirstTable [str "| x | y", str "| --"] =
      [str "| x | y", str "| --"] ∧
    extractFirstTable [str "| x | y", str "| --"] ≠ [] := by
  constructor
  · decide
  · decide

theorem collectTable_eq_takeWhile (ls : List Line) :
    collectTable ls =
      ls.takeWhile (fun l => l.contains '|' && !decide (trimL l = [])) := by
  induction ls with
  | nil => rfl
  | cons t rest ih =>
    rw [List.takeWhile_cons]
    simp only [collectTable]
    by_cases h1 : (!(t.contains '|')) = true
    · have hc : t.contains '|' = false := by simpa using h1
      rw [if_pos h1, if_neg (by intro hp; rw [hc] at hp; simp at hp)]
    · have hc : t.contains '|' = true := by simpa using h1
      rw [if_neg h1]
      by_cases h2 : trimL t = []
      · rw [if_pos h2, if_neg (by intro hp; rw [h2] at hp; simp at hp)]
      · rw [if_neg h2, if_pos (by rw [hc]; simp [h2])]
        congr 1
        match rest with
        | [] => rfl
        | next :: r' =>
          show (if trimL next = [] then [] else collectTable (next :: r')) = _
          by_cases h3 : trimL next = []
          · rw [if_pos h3, List.takeWhile_cons,
              if_neg (by intro hp; rw [h3] at hp; simp at hp)]
          · rw [if_neg h3, ih]

theorem tableStart_eq_spec (ls : List Line) :
    tableStart ls = (match (ls.zip ls.tail).findIdx? tablePairPred with
      | none => []
      | some i => ls.drop i) := by
  induction ls using tableStart.induct with
  | case1 l next rest hcond =>
    have hq : tablePairPred (l, next) = true := hcond
    simp only [tableStart, if_pos hcond, List.tail_cons, List.zip_cons_cons,
      List.findIdx?_cons, hq, if_true]
    rfl
  | case2 l next rest hcond ih =>
    have hq : tablePairPred (l, next) = false := by
      have := hcond
      simp only [tablePairPred]
      simpa using this
    simp only [tableStart, if_neg hcond, List.tail_cons, List.zip_cons_cons,
      List.findIdx?_cons, hq, Bool.false_eq_true, if_false, List.findIdx?_succ]
    rw [ih]
    simp only [List.tail_cons]
    cases hr : ((next :: rest).zip rest).findIdx? tablePairPred with
    | none => rfl
    | some i => rfl
  | case3 ls hshape =>
    match ls, hshape with
    | [], _ => rfl
    | [x], _ => rfl
    | l :: next :: rest, hsh => exact absurd rfl (hsh l next rest)

/-- C4, amended: the table locator returns the contiguous lines of the
first table, where a table exists only if a line containing a pipe
followed by optional whitespace and at least two dashes (a closing pipe
is not required) immediately follows a candidate header line; if no such
header/separator pair exists anywhere in the section it returns the
empty sequence. -/
theorem extractFirstTable_eq_spec (sectionLines : List Line) :
    extractFirstTable sectionLines = extractFirstTableSpec sectionLines := by
  unfold extractFirstTable extractFirstTableSpec
  rw [tableStart_eq_spec]
  cases h : ((sectionLines.map trimRightL).zip
      (sectionLines.map trimRightL).tail).findIdx? tablePairPred with
  | none => rfl
  | some i => exact collectTable_eq_takeWhile _

/-! Claim C2: supporting lemmas on case folding, trimming and substring
containment. -/

theorem asciiCaseTable_facts : ∀ pr ∈ asciiCaseTable,
    isWs pr.1 = false ∧ isWs pr.2 = false ∧ pr.2 ≠ '#' ∧ pr.2 ≠ ' ' := by decide

theorem lowerC_ws (c : Char) : isWs (lowerC c) = isWs c := by
  unfold lowerC
  cases hf : asciiCaseTable.find? (fun pr => pr.1 == c) with
  | none => rfl
  | some pr =>
    have hc : pr.1 = c := by simpa using List.find?_some hf
    have hfacts := asciiCaseTable_facts pr (List.mem_of_find?_eq_some hf)
    rw [hfacts.2.1, ← hc, hfacts.1]

theorem lowerC_eq_hash (c : Char) (h : lowerC c = '#') : c = '#' := by
  unfold lowerC at h
  cases hf : asciiCaseTable.find? (fun pr => pr.1 == c) with
  | none =>
    rw [hf] at h
    exact h
  | some pr =>
    rw [hf] at h
    exact absurd h (asciiCaseTable_facts pr (List.mem_of_find?_eq_some hf)).2.2.1

theorem lowerC_eq_space (c : Char) (h : lowerC c = ' ') : c = ' ' := by
  unfold lowerC at h
  cases hf : asciiCaseTable.find? (fun pr => pr.1 == c) with
  | none =>
    rw [hf] at h
    exact h
  | some pr =>
    rw [hf] at h
    exact absurd h (asciiCaseTable_facts pr (List.mem_of_find?_eq_some hf)).2.2.2

theorem lowerC_of_ws (c : Char) (h : isWs c = true) : lowerC c = c := by
  unfold lowerC
  cases hf : asciiCaseTable.find? (fun pr => pr.1 == c) with
  | none => rfl
  | some pr =>
    have hc : pr.1 = c := by simpa using List.find?_some hf
    have hws := (asciiCaseTable_facts pr (List.mem_of_find?_eq_some hf)).1
    rw [hc] at hws
    rw [hws] at h
    cases h

theorem comp_isWs_lowerC : (isWs ∘ lowerC) = isWs :=
  funext (fun c => by simp only [Function.comp_apply, lowerC_ws])

theorem dropWhile_toLowerL (s : Line) :
    List.dropWhile isWs (toLowerL s) = toLowerL (List.dropWhile isWs s) := by
  unfold toLowerL
  rw [List.dropWhile_map, comp_isWs_lowerC]

theorem rdropWhile_toLowerL (s : Line) :
    List.rdropWhile isWs (toLowerL s) = toLowerL (List.rdropWhile isWs s) := by
  show (List.dropWhile isWs (toLowerL s).reverse).reverse =
    toLowerL ((List.dropWhile isWs s.reverse).reverse)
  rw [show (toLowerL s).reverse = toLowerL s.reverse from (List.map_reverse _ _).symm]
  rw [dropWhile_toLowerL]
  unfold toLowerL
  rw [List.map_reverse]

theorem trimL_toLowerL (s : Line) : trimL (toLowerL s) = toLowerL (trimL s) := by
  unfold trimL
  rw [rdropWhile_toLowerL, dropWhile_toLowerL]

theorem hasSub_iff (p s : Line) : hasSub p s = true ↔ p <:+: s := by
  induction s with
  | nil =>
    simp only [hasSub, List.isEmpty_iff]
    rw [ List.infix_nil]
  | cons c rest ih =>
    simp only [hasSub, Bool.or_eq_true, List.isPrefixOf_iff_prefix, ih]
    rw [ List.infix_cons_iff]

theorem infix_dropWhile_iff (p s : Line) (hne : p ≠ [])
    (hp : ∀ c ∈ p, isWs c = false) :
    p <:+: List.dropWhile isWs s ↔ p <:+: s := by
  constructor
  · intro h
    exact h.trans (List.dropWhile_suffix isWs).isInfix
  · intro h
    induction s with
    | nil => simpa using h
    | cons c s' ih =>
      rw [List.dropWhile_cons]
      split_ifs with hc
      · apply ih
        rcases List.infix_cons_iff.mp h with hpre | hinf
        · exfalso
          match p, hne with
          | p0 :: pr, _ =>
            have := (List.cons_prefix_cons.mp hpre).1
            subst this
            rw [hp p0 (by simp)] at hc
            cases hc
        · exact hinf
      · exact h

theorem infix_rdropWhile_iff (p s : Line) (hne : p ≠ [])
    (hp : ∀ c ∈ p, isWs c = false) :
    p <:+: List.rdropWhile isWs s ↔ p <:+: s := by
  have h1 : (p <:+: List.rdropWhile isWs s) ↔
      p.reverse <:+: List.dropWhile isWs s.reverse := by
    rw [show List.rdropWhile isWs s = (List.dropWhile isWs s.reverse).reverse
      from rfl]
    conv_lhs => rw [← List.reverse_reverse p]
    exact List.reverse_infix
  have h2 : (p.reverse <:+: List.dropWhile isWs s.reverse) ↔
      p.reverse <:+: s.reverse :=
    infix_dropWhile_iff p.reverse s.reverse (by simpa using hne)
      (fun c hc => hp c (List.mem_reverse.mp hc))
  have h3 : (p.reverse <:+: s.reverse) ↔ p <:+: s := List.reverse_infix
  exact (h1.trans h2).trans h3

theorem infix_trimL_iff (p s : Line) (hne : p ≠ [])
    (hp : ∀ c ∈ p, isWs c = false) :
    p <:+: trimL s ↔ p <:+: s := by
  unfold trimL
  exact (infix_dropWhile_iff p _ hne hp).trans (infix_rdropWhile_iff p s hne hp)

theorem bool_eq_of_iff {a b : Bool} (h : a = true ↔ b = true) : a = b := by
  cases a <;> cases b <;> simp_all

theorem propsHeadingFind_eq (l : Line) : isPropsHeadingFind l = isPropsHeading l := by
  unfold isPropsHeadingFind isPropsHeading
  congr 1
  apply bool_eq_of_iff
  rw [hasSub_iff, hasSub_iff, ← trimL_toLowerL]
  exact (infix_trimL_iff (str "props") (toLowerL l) (by decide) (by decide)).symm

/-! Claim C2: the component-name derivation commutes with trimming the
heading line, which connects the single- and multi-component paths. -/

theorem prefix_nonws_append_ws (z : Line) (hz : ∀ c ∈ z, isWs c = true) :
    ∀ p x : Line, (∀ c ∈ p, isWs c = false) →
      p.isPrefixOf (x ++ z) = p.isPrefixOf x := by
  intro p
  induction p with
  | nil =>
    intro x hp
    apply bool_eq_of_iff
    simp [List.isPrefixOf_iff_prefix, List.nil_prefix]
  | cons a p' ih =>
    intro x hp
    match x with
    | [] =>
      rw [List.nil_append]
      match z with
      | [] => rfl
      | c :: z' =>
        have hne : (a == c) = false := by
          apply beq_eq_false_iff_ne.mpr
          intro heq
          have h1 := hp a (by simp)
          have h2 := hz c (by simp)
          rw [heq, h2] at h1
          cases h1
        simp [List.isPrefixOf, hne]
    | b :: x' =>
      simp only [List.cons_append, List.isPrefixOf, List.append_eq]
      rw [ih x' (fun c hc => hp c (List.mem_cons_of_mem _ hc))]

theorem props_prefix_ws (r : Line) (hr : ∀ c ∈ r, isWs c = true) :
    (str "props").isPrefixOf (toLowerL r) = false := by
  match r with
  | [] => rfl
  | c :: r' =>
    show List.isPrefixOf (str "props") (lowerC c :: toLowerL r') = false
    have hc : isWs (lowerC c) = true := by
      rw [lowerC_ws]
      exact hr c (by simp)
    have hne : ('p' == lowerC c) = false := by
      apply beq_eq_false_iff_ne.mpr
      intro heq
      rw [← heq] at hc
      exact absurd hc (by decide)
    rw [show str "props" = 'p' :: str "rops" from rfl]
    simp [List.isPrefixOf, hne]

theorem wsPropsAt_all_ws (z : Line) (hz : ∀ c ∈ z, isWs c = true) :
    wsPropsAt z = false := by
  induction z with
  | nil => rfl
  | cons c r ih =>
    simp only [wsPropsAt]
    rw [props_prefix_ws r (fun c hc => hz c (List.mem_cons_of_mem _ hc)),
      ih (fun c hc => hz c (List.mem_cons_of_mem _ hc))]
    simp

theorem props_prefix_append_ws (s z : Line) (hz : ∀ c ∈ z, isWs c = true) :
    (str "props").isPrefixOf (toLowerL (s ++ z)) =
      (str "props").isPrefixOf (toLowerL s) := by
  unfold toLowerL
  rw [List.map_append]
  exact prefix_nonws_append_ws (z.map lowerC)
    (fun c hc => by
      obtain ⟨c', hc', rfl⟩ := List.mem_map.mp hc
      rw [lowerC_ws]
      exact hz c' hc')
    (str "props") (s.map lowerC) (by decide)

theorem wsPropsAt_append_ws (s z : Line) (hz : ∀ c ∈ z, isWs c = true) :
    wsPropsAt (s ++ z) = wsPropsAt s := by
  induction s with
  | nil =>
    rw [List.nil_append, wsPropsAt_all_ws z hz]
    rfl
  | cons c s' ih =>
    simp only [List.cons_append, wsPropsAt, List.append_eq]
    rw [props_prefix_append_ws s' z hz, ih]

theorem stripProps_all_ws (z : Line) (hz : ∀ c ∈ z, isWs c = true) :
    stripPropsSuffix z = z := by
  induction z with
  | nil => rfl
  | cons c r ih =>
    simp only [stripPropsSuffix]
    rw [if_neg (by rw [wsPropsAt_all_ws (c :: r) hz]; simp),
      ih (fun c hc => hz c (List.mem_cons_of_mem _ hc))]

theorem stripProps_append_ws (V z : Line) (hz : ∀ c ∈ z, isWs c = true) :
    stripPropsSuffix (V ++ z) = stripPropsSuffix V ∨
      stripPropsSuffix (V ++ z) = stripPropsSuffix V ++ z := by
  induction V with
  | nil =>
    right
    rw [List.nil_append, stripProps_all_ws z hz]
    rfl
  | cons c V' ih =>
    simp only [List.cons_append, stripPropsSuffix, List.append_eq]
    have hM : wsPropsAt (c :: (V' ++ z)) = wsPropsAt (c :: V') := by
      have := wsPropsAt_append_ws (c :: V') z hz
      simpa [List.cons_append] using this
    rw [hM]
    split_ifs with hcond
    · exact Or.inl rfl
    · rcases ih with heq | heq
      · exact Or.inl (by rw [heq])
      · right
        rw [heq, List.cons_append]

theorem rdropWhile_append_ws (y z : Line) (hz : ∀ c ∈ z, isWs c = true) :
    List.rdropWhile isWs (y ++ z) = List.rdropWhile isWs y := by
  show (List.dropWhile isWs (y ++ z).reverse).reverse = _
  rw [List.reverse_append, List.dropWhile_append,
    show List.dropWhile isWs z.reverse = [] from
      List.dropWhile_eq_nil_iff.mpr (fun x hx => hz x (List.mem_reverse.mp hx))]
  simp only [List.isEmpty_nil, if_true]
  rfl

theorem trimL_append_ws (y z : Line) (hz : ∀ c ∈ z, isWs c = true) :
    trimL (y ++ z) = trimL y := by
  unfold trimL
  rw [rdropWhile_append_ws y z hz]

theorem hash_space_prefix_of_lower (x : Line)
    (h : (str "### ").isPrefixOf (toLowerL x) = true) :
    (str "### ").isPrefixOf x = true := by
  rw [show str "### " = ['#', '#', '#', ' '] from rfl] at h ⊢
  match x with
  | [] => exact absurd h (by decide)
  | [a] => simp [toLowerL, List.isPrefixOf] at h
  | [a, b] => simp [toLowerL, List.isPrefixOf] at h
  | [a, b, c] => simp [toLowerL, List.isPrefixOf] at h
  | a :: b :: c :: d :: t =>
    simp only [toLowerL, List.map_cons, List.isPrefixOf, Bool.and_eq_true,
      beq_iff_eq] at h
    have ha : a = '#' := lowerC_eq_hash a h.1.symm
    have hb : b = '#' := lowerC_eq_hash b h.2.1.symm
    have hc : c = '#' := lowerC_eq_hash c h.2.2.1.symm
    have hd : d = ' ' := lowerC_eq_space d h.2.2.2.1.symm
    subst ha
    subst hb
    subst hc
    subst hd
    simp [List.isPrefixOf]

theorem stripHeadingName_trimL (l : Line)
    (h : (str "### ").isPrefixOf (trimL l) = true) :
    stripHeadingName (trimL l) = stripHeadingName l := by
  have hdecomp : l = List.rdropWhile isWs l ++ (l.reverse.takeWhile isWs).reverse := by
    conv_lhs => rw [← List.reverse_reverse l,
      ← List.takeWhile_append_dropWhile isWs l.reverse]
    rw [List.reverse_append]
    rfl
  set z := (l.reverse.takeWhile isWs).reverse with hzdef
  have hz : ∀ c ∈ z, isWs c = true :=
    fun c hc => List.mem_takeWhile_imp (List.mem_reverse.mp hc)
  have htrim : trimL l = List.dropWhile isWs (List.rdropWhile isWs l) := rfl
  have hpre : str "### " <+: trimL l := List.isPrefixOf_iff_prefix.mp h
  have hlen : 4 ≤ (trimL l).length := hpre.length_le
  have hne : trimL l ≠ [] := by
    intro hempty
    rw [hempty] at hlen
    simp at hlen
  have h3 : (str "###").isPrefixOf (trimL l) = true := by
    apply List.isPrefixOf_iff_prefix.mpr
    exact (show str "###" <+: str "### " from by decide).trans hpre
  have h1 : List.dropWhile isWs l = trimL l ++ z := by
    conv_lhs => rw [hdecomp]
    rw [List.dropWhile_append]
    rw [show (List.dropWhile isWs (List.rdropWhile isWs l)).isEmpty = false from by
      rw [← htrim]
      cases hcase : trimL l with
      | nil => exact absurd hcase hne
      | cons u v => rfl]
    rfl
  have hhashL : stripHashMarker l =
      List.dropWhile isWs ((trimL l).drop 3 ++ z) := by
    simp only [stripHashMarker]
    rw [h1, if_pos (by
      rw [prefix_nonws_append_ws z hz (str "###") (trimL l) (by decide)]
      exact h3)]
    rw [List.drop_append_of_le_length (by omega)]
  have hidem : List.dropWhile isWs (trimL l) = trimL l := by
    conv_lhs => rw [htrim, List.dropWhile_idempotent]
    rfl
  have hhashT : stripHashMarker (trimL l) =
      List.dropWhile isWs ((trimL l).drop 3) := by
    simp only [stripHashMarker]
    rw [hidem, if_pos h3]
  unfold stripHeadingName
  rw [hhashL, hhashT]
  rw [List.dropWhile_append]
  by_cases hcase : (List.dropWhile isWs ((trimL l).drop 3)).isEmpty = true
  · rw [if_pos hcase]
    have hV := List.isEmpty_iff.mp hcase
    rw [hV, List.dropWhile_eq_nil_iff.mpr (fun x hx => hz x hx)]
  · rw [if_neg hcase]
    rcases stripProps_append_ws (List.dropWhile isWs ((trimL l).drop 3)) z hz
      with heq | heq
    · rw [heq]
    · rw [heq, trimL_append_ws _ z hz]

/-- C2: the dispatcher counts props headings (lines whose trimmed text
case-insensitively starts with `### ` and contains `props`); with at
most one such heading it returns exactly one `ComponentDoc` whose name
is derived from that heading by the stripping rule (or `Unknown` when
there is none), and with more than one it returns one `ComponentDoc` per
matching heading, in document order, named by the same stripping rule. -/
theorem dispatcher_classification (lines : List Line) :
    ((lines.filter isPropsHeading).length ≤ 1 →
      ∃ doc, processMarkdownFile lines = [doc] ∧
        doc.component = (match lines.filter isPropsHeading with
          | [] => str "Unknown"
          | hh :: _ => stripHeadingName (trimL hh))) ∧
    (1 < (lines.filter isPropsHeading).length →
      (processMarkdownFile lines).map ComponentDocJson.component =
        (lines.filter isPropsHeading).map (fun hh => stripHeadingName (trimL hh))) := by
  constructor
  · intro hle
    simp only [processMarkdownFile]
    rw [if_neg (by omega)]
    refine ⟨_, rfl, ?_⟩
    show (match lines.find? isPropsHeadingFind with
      | some l => stripHeadingName l
      | none => str "Unknown") = _
    rw [show isPropsHeadingFind = isPropsHeading from funext propsHeadingFind_eq,
      ← List.filter_head?]
    cases hfil : lines.filter isPropsHeading with
    | nil => rfl
    | cons hh t =>
      have hmem : isPropsHeading hh = true :=
        (List.mem_filter.mp (hfil ▸ List.mem_cons_self hh t)).2
      have hlow : (str "### ").isPrefixOf (toLowerL (trimL hh)) = true := by
        have h2 := hmem
        unfold isPropsHeading at h2
        cases hand : (str "### ").isPrefixOf (toLowerL (trimL hh)) with
        | false =>
          rw [hand] at h2
          simp at h2
        | true => rfl
      have hpre : (str "### ").isPrefixOf (trimL hh) = true :=
        hash_space_prefix_of_lower (trimL hh) hlow
      simp only [List.head?_cons]
      exact (stripHeadingName_trimL hh hpre).symm
  · intro hgt
    simp only [processMarkdownFile]
    rw [if_pos hgt]
    unfold parseMultiComponentDoc
    rw [List.filter_map, List.map_map, List.map_map]
    rfl

/-- Witness for C2: a two-heading document is classified as
multi-component, with the names `Tag` and `Tab` derived in order. -/
theorem dispatcher_classification_witness :
    (processMarkdownFile
        [str "### Tag Props", str "x", str "### Tab Props"]).map
      ComponentDocJson.component = [str "Tag", str "Tab"] := by
  have h := (dispatcher_classification
    [str "### Tag Props", str "x", str "### Tab Props"]).2 (by decide)
  rw [h]
  decide

/-! Claim C10: the MCP tool handlers of the server. -/

/-- The filesystem model: an association of paths to file contents. -/
abbrev FS := List (Line × Line)

/-- `fs.existsSync` over the filesystem model. -/
def fsExists (fs : FS) (p : Line) : Bool := fs.any (fun e => e.1 == p)

/-- `fs.readFileSync` over the filesystem model (defaulting to the empty
file, which the abstract parsers are free to reject). -/
def fsRead (fs : FS) (p : Line) : Line :=
  ((fs.find? (fun e => e.1 == p)).map (fun e => e.2)).getD []

/-- The parsed shape of `index.json`. -/
structure IndexShape where
  components : List IndexEntry

/-- The parsed shape of a per-component data file: `data.component`,
`data.props`, `data.events`, each possibly absent. -/
structure ComponentData where
  component : Line
  props : Option (List ParsedPropRow)
  events : Option (List ParsedEventRow)

/-- JS `Array.prototype.join(", ")`. -/
def joinComma : List Line → Line
  | [] => []
  | [x] => x
  | x :: xs => x ++ str ", " ++ joinComma xs

/-- The two index-file candidates of `loadComponentData` and
`getComponentList`, under the project root. -/
def indexCandidates (root : Line) : List Line :=
  [root ++ str "/build/data/components/index.json",
   root ++ str "/src/data/components/index.json"]

/-- JS `entry.file.replace(/^src\//, "build/")`. -/
def srcToBuild (f : Line) : Line :=
  if (str "src/").isPrefixOf f then str "build/" ++ f.drop 4 else f

/-- The per-component file candidates of `loadComponentData`. -/
def fileCandidates (root : Line) (file : Line) : List Line :=
  [root ++ str "/" ++ srcToBuild file, root ++ str "/" ++ file]

/-- Embedding of `loadComponentData` (src/index.ts:20-52).  `JSON.parse`
is abstracted into the two parser parameters; a parser's `.error` result
models the exception `JSON.parse` would throw. -/
def loadComponentData (root : Line)
    (parseIndex : Line → Except Line IndexShape)
    (parseComp : Line → Except Line ComponentData) (fs : FS)
    (componentName : Line) : Except Line ComponentData :=
  match (indexCandidates root).find? (fsExists fs) with
  | none => .error (str "Index file not found. Candidates: " ++
      joinComma (indexCandidates root))
  | some indexFile =>
    match parseIndex (fsRead fs indexFile) with
    | .error e => .error e
    | .ok indexJson =>
      match indexJson.components.find?
          (fun c => toLowerL c.name == toLowerL componentName) with
      | none => .error (str "Component '" ++ componentName ++ str "' not found")
      | some entry =>
        match (fileCandidates root entry.file).find? (fsExists fs) with
        | none => .error (str "Component file not found for '" ++ componentName ++
            str "'. Candidates: " ++ joinComma (fileCandidates root entry.file))
        | some abs =>
          match parseComp (fsRead fs abs) with
          | .error e => .error e
          | .ok d => .ok d

/-- A tool response: one `text` content item carrying a JSON payload. -/
structure TextContent (π : Type) where
  text : π

/-- The JSON payload returned by `getComponentList`. -/
inductive ListPayload where
  | ok (components : List IndexEntry) (total : Nat)
  | err (components : List IndexEntry) (error : Line)

/-- Whether the payload carries an `error` field. -/
def ListPayload.hasError : ListPayload → Bool
  | .ok .. => false
  | .err .. => true

/-- The JSON payload returned by `getComponentProps`/`getComponentEvents`. -/
inductive CompPayload (α : Type) where
  | ok (component : Line) (items : List α) (total : Nat)
  | err (error : Line)

/-- Whether the payload carries an `error` field. -/
def CompPayload.hasError {α : Type} : CompPayload α → Bool
  | .ok .. => false
  | .err .. => true

/-- Embedding of the `getComponentList` handler (src/index.ts:54-101);
the try/catch is modelled by mapping the parser's `.error` result onto
the catch branch's error payload. -/
def getComponentListHandler (root : Line)
    (parseIndex : Line → Except Line IndexShape) (fs : FS) :
    TextContent ListPayload :=
  match (indexCandidates root).find? (fsExists fs) with
  | none => ⟨.err [] (str "Index file not found. Candidates: " ++
      joinComma (indexCandidates root))⟩
  | some indexFile =>
    match parseIndex (fsRead fs indexFile) with
    | .error e => ⟨.err [] (str "Failed to get component list: " ++ e)⟩
    | .ok indexJson =>
      ⟨.ok (indexJson.components.map (fun e => { name := e.name, file := e.file }))
        indexJson.components.length⟩

/-- The `args?.componentName` lookup, with the JS falsiness of a missing
args object, a missing property and the empty string. -/
def argComponentName (args : Option (List (Line × Line))) : Option Line :=
  match ((args.getD []).find? (fun kv => kv.1 == str "componentName")).map
      (fun kv => kv.2) with
  | some v => if v = [] then none else some v
  | none => none

/-- Embedding of the `getComponentProps` handler (src/index.ts:103-140). -/
def getComponentPropsHandler (root : Line)
    (parseIndex : Line → Except Line IndexShape)
    (parseComp : Line → Except Line ComponentData) (fs : FS)
    (args : Option (List (Line × Line))) :
    TextContent (CompPayload ParsedPropRow) :=
  match argComponentName args with
  | none => ⟨.err (str "componentName parameter is required. Available args: " ++
      joinComma ((args.getD []).map (fun kv => kv.1)))⟩
  | some componentName =>
    match loadComponentData root parseIndex parseComp fs componentName with
    | .error e => ⟨.err (str "Failed to get component props: " ++ e)⟩
    | .ok d => ⟨.ok d.component (d.props.getD []) (d.props.getD []).length⟩

/-- Embedding of the `getComponentEvents` handler (src/index.ts:142-179). -/
def getComponentEventsHandler (root : Line)
    (parseIndex : Line → Except Line IndexShape)
    (parseComp : Line → Except Line ComponentData) (fs : FS)
    (args : Option (List (Line × Line))) :
    TextContent (CompPayload ParsedEventRow) :=
  match argComponentName args with
  | none => ⟨.err (str "componentName parameter is required. Available args: " ++
      joinComma ((args.getD []).map (fun kv => kv.1)))⟩
  | some componentName =>
    match loadComponentData root parseIndex parseComp fs componentName with
    | .error e => ⟨.err (str "Failed to get component events: " ++ e)⟩
    | .ok d => ⟨.ok d.component (d.events.getD []) (d.events.getD []).length⟩

/-- C10: each handler is a total function into a text content result,
and every failure — index file not found, malformed index JSON, missing
or empty `componentName` argument, component not found, component file
not found, unreadable or malformed component JSON (the latter three
surfacing as `.error` results of `loadComponentData`) — is returned as
a payload carrying an `error` field, never propagated as an exception. -/
theorem handlers_return_error_payloads (root : Line)
    (parseIndex : Line → Except Line IndexShape)
    (parseComp : Line → Except Line ComponentData) (fs : FS)
    (args : Option (List (Line × Line))) :
    ((indexCandidates root).find? (fsExists fs) = none →
      (getComponentListHandler root parseIndex fs).text.hasError = true) ∧
    (∀ f e, (indexCandidates root).find? (fsExists fs) = some f →
      parseIndex (fsRead fs f) = .error e →
      (getComponentListHandler root parseIndex fs).text.hasError = true) ∧
    (argComponentName args = none →
      (getComponentPropsHandler root parseIndex parseComp fs args).text.hasError
          = true ∧
      (getComponentEventsHandler root parseIndex parseComp fs args).text.hasError
          = true) ∧
    (∀ n e, argComponentName args = some n →
      loadComponentData root parseIndex parseComp fs n = .error e →
      (getComponentPropsHandler root parseIndex parseComp fs args).text.hasError
          = true ∧
      (getComponentEventsHandler root parseIndex parseComp fs args).text.hasError
          = true) ∧
    (∀ n, (indexCandidates root).find? (fsExists fs) = none →
      ∃ e, loadComponentData root parseIndex parseComp fs n = .error e) ∧
    (∀ n f idx, (indexCandidates root).find? (fsExists fs) = some f →
      parseIndex (fsRead fs f) = .ok idx →
      idx.components.find? (fun c => toLowerL c.name == toLowerL n) = none →
      loadComponentData root parseIndex parseComp fs n =
        .error (str "Component '" ++ n ++ str "' not found")) := by
  refine ⟨?_, ?_, ?_, ?_, ?_, ?_⟩
  · intro h
    unfold getComponentListHandler
    simp only [h, ListPayload.hasError]
  · intro f e hf he
    unfold getComponentListHandler
    simp only [hf, he, ListPayload.hasError]
  · intro h
    constructor
    · unfold getComponentPropsHandler
      simp only [h, CompPayload.hasError]
    · unfold getComponentEventsHandler
      simp only [h, CompPayload.hasError]
  · intro n e hn hl
    constructor
    · unfold getComponentPropsHandler
      simp only [hn, hl, CompPayload.hasError]
    · unfold getComponentEventsHandler
      simp only [hn, hl, CompPayload.hasError]
  · intro n h
    unfold loadComponentData
    rw [h]
    exact ⟨_, rfl⟩
  · intro n f idx hf hp hfind
    unfold loadComponentData
    simp only [hf, hp, hfind]

/-- Witness for C10: on an empty filesystem, all three handlers return
error payloads instead of raising. -/
theorem handlers_return_error_payloads_witness :
    (getComponentListHandler [] (fun _ => Except.error []) []).text.hasError
        = true ∧
    (getComponentPropsHandler [] (fun _ => Except.error [])
        (fun _ => Except.error []) [] none).text.hasError = true ∧
    (getComponentEventsHandler [] (fun _ => Except.error [])
        (fun _ => Except.error []) [] none).text.hasError = true := by
  have h := handlers_return_error_payloads [] (fun _ => Except.error [])
    (fun _ => Except.error []) [] none
  exact ⟨h.1 (by decide), (h.2.2.1 (by decide)).1, (h.2.2.1 (by decide)).2⟩

end TDesign

